import Mathlib

/-!
# Verification of the NovelMind build pipeline (build_system.cpp, build_size_analyzer.cpp)

Shallow embedding of the build orchestrator, the `.nmres` pack writer, and the
build-size analyzer.  Filesystem state is abstracted as an existence predicate
`String → Bool`; file contents are byte lists (`List (Fin 256)`); `Result<T>`
is `Except String T`; `f32`/`f64` progress fractions are embedded as exact
rationals (`ℚ`); the `u32`/`u64` fields of the binary format are embedded as
`ℕ` (no size arithmetic in the pack writer depends on wraparound), while the
content hash of the analyzer, whose value semantically lives in `u64`, keeps
its `% 2^64` reductions.
-/

namespace NovelMind

/-! ## String helpers

`std::string::find(needle) != npos`, `find(needle) == 0` and
`fs::path::filename()` are modelled on the underlying character lists. -/

/-- Test `startsWithL needle hay`: `hay` begins with `needle`
(`std::string::find(needle) == 0`). -/
def startsWithL : List Char → List Char → Bool
  | [], _ => true
  | _ :: _, [] => false
  | a :: as, b :: bs => a == b && startsWithL as bs

/-- Test `containsSubL needle hay`: `needle` occurs somewhere in `hay`
(`std::string::find(needle) != std::string::npos`). -/
def containsSubL (needle : List Char) : List Char → Bool
  | [] => startsWithL needle []
  | c :: rest => startsWithL needle (c :: rest) || containsSubL needle rest

/-- Lift of `containsSubL` to `String`: `strContains hay needle`. -/
def strContains (hay needle : String) : Bool :=
  containsSubL needle.data hay.data

/-- Characters of the last path component: walk the path, restarting the
accumulator after every separator.  Models `fs::path(p).filename()` with the
generic `/` separator. -/
def filenameAux (cur : List Char) : List Char → List Char
  | [] => cur
  | c :: rest => if c = '/' then filenameAux [] rest else filenameAux (cur ++ [c]) rest

/-- Model of `fs::path(p).filename().string()`: the part of `p` after the last `/`. -/
def pathFilename (p : String) : String :=
  String.mk (filenameAux [] p.data)

/-! ## BuildSystem::startBuild (build_system.cpp:178-218) -/

/-- The slice of `BuildConfig` the verified code paths read. Presentation-only
fields (executable name, version, signing certificate, logging flags…) are
omitted. -/
structure BuildConfig where
  projectPath : String
  outputPath : String
  packAssets : Bool
  encryptAssets : Bool
  includedLanguages : List String
  defaultLanguage : String

/-- What the synchronous part of `startBuild` produces: the `Result<void>`
return value, and whether the background worker thread (the only code that
ever creates the staging directory) was spawned. -/
structure StartBuildOutcome where
  result : Except String Unit
  workerSpawned : Bool

/-- Model of `BuildSystem::startBuild`, synchronous part: the guard chain executed
before `m_buildThread` is created.  `buildInProgress` is `m_buildInProgress`
at entry, `fsEx` the filesystem existence predicate. -/
def startBuild (buildInProgress : Bool) (fsEx : String → Bool)
    (config : BuildConfig) : StartBuildOutcome :=
  if buildInProgress then ⟨.error "Build already in progress", false⟩
  else if config.projectPath = "" then ⟨.error "Project path is required", false⟩
  else if config.outputPath = "" then ⟨.error "Output path is required", false⟩
  else if fsEx config.projectPath = false then
    ⟨.error ("Project path does not exist: " ++ config.projectPath), false⟩
  else ⟨.ok (), true⟩

/-- The staging directory `<outputPath>/.staging` is created only by
`runBuildPipeline`, which runs on the worker thread; so it gets created
exactly when `startBuild` spawned the worker. -/
def startBuildCreatesStaging (buildInProgress : Bool) (fsEx : String → Bool)
    (config : BuildConfig) : Bool :=
  (startBuild buildInProgress fsEx config).workerSpawned

/-! ## BuildSystem::validateProject (build_system.cpp:227-253) -/

/-- Model of `BuildSystem::validateProject`: collects validation-error strings and
always returns them through the `ok` constructor of `Result`. -/
def validateProject (fsEx : String → Bool) (projectPath : String) :
    Except String (List String) :=
  if fsEx projectPath = false then
    .ok ["Project directory does not exist: " ++ projectPath]
  else
    let e1 := if fsEx (projectPath ++ "/project.json") = false then
      ["Missing project.json in project directory"] else []
    let e2 := if fsEx (projectPath ++ "/scripts") = false then
      ["Missing required directory: scripts"] else []
    let e3 := if fsEx (projectPath ++ "/assets") = false then
      ["Missing required directory: assets"] else []
    .ok (e1 ++ e2 ++ e3)

/-! ## BuildSystem::buildPack (build_system.cpp:1257-1406)

The writer is embedded at record level: each structure below holds exactly the
values the two-pass writer serialises (in serialisation order), with the
back-patched header offsets computed from the fixed record sizes
(64-byte header, 48-byte resource-table records, 32-byte footer). -/

/-- One input file handed to `buildPack`: its path and its byte content
(`fs::file_size` is the content length; the data loop streams the bytes). -/
structure PackInputFile where
  path : String
  content : List (Fin 256)

/-- Bytes a resource id occupies in the string table: the filename component
(UTF-8 bytes, `std::string::size()`) plus its null terminator. -/
def nameBytes (f : PackInputFile) : ℕ :=
  (pathFilename f.path).utf8ByteSize + 1

/-- One 48-byte resource-table record (`iv` is 8 zero bytes and is left
implicit). -/
structure ResourceTableEntry where
  stringOffset : ℕ
  resourceType : ℕ
  dataOffset : ℕ
  compressedSize : ℕ
  uncompressedSize : ℕ
  flags : ℕ
  crc32 : ℕ

/-- The resource-table loop: emits one record per file while accumulating
`currentStringOffset` (`sOff`) and `currentDataOffset` (`dOff`). -/
def buildEntries : List PackInputFile → ℕ → ℕ → List ResourceTableEntry
  | [], _, _ => []
  | f :: rest, sOff, dOff =>
      ⟨sOff, 8, dOff, f.content.length, f.content.length, 0, 0⟩
        :: buildEntries rest (sOff + nameBytes f) (dOff + f.content.length)

/-- The string-offset loop: `stringOffsets.push_back(currentStringOffset)`
then `currentStringOffset += resourceId.size() + 1`. -/
def stringOffsetList : List PackInputFile → ℕ → List ℕ
  | [], _ => []
  | f :: rest, acc => acc :: stringOffsetList rest (acc + nameBytes f)

/-- The string table: count, offset array, and the packed null-terminated
names. -/
structure PackStringTable where
  stringCount : ℕ
  offsets : List ℕ
  names : List String

/-- The fixed-size pack header, with the offsets as patched in the second
pass. -/
structure PackHeader where
  magic : String
  versionMajor : ℕ
  versionMinor : ℕ
  flags : ℕ
  resourceCount : ℕ
  resourceTableOffset : ℕ
  stringTableOffset : ℕ
  dataSectionOffset : ℕ
  totalFileSize : ℕ

/-- Everything `buildPack` writes into the `.nmres` file. -/
structure BuiltPack where
  header : PackHeader
  entries : List ResourceTableEntry
  stringTable : PackStringTable
  dataSection : List (Fin 256)
  footerMagic : String

/-- Model of `BuildSystem::buildPack` for a list of readable input files. -/
def buildPack (files : List PackInputFile) (encrypt compress : Bool) : BuiltPack :=
  let resourceIds := files.map (fun f => pathFilename f.path)
  let headerFlags := (if encrypt then 1 else 0) + (if compress then 2 else 0)
  let stringsBytes := (files.map nameBytes).sum
  let dataBytes := (files.map (fun f => f.content.length)).sum
  let resourceTableOffset := 64
  let stringTableOffset := resourceTableOffset + 48 * files.length
  let dataSectionOffset := stringTableOffset + 4 + 4 * files.length + stringsBytes
  { header := ⟨"NMRS", 1, 0, headerFlags, files.length, resourceTableOffset,
      stringTableOffset, dataSectionOffset, dataSectionOffset + dataBytes + 32⟩,
    entries := buildEntries files 0 0,
    stringTable := ⟨files.length, stringOffsetList files 0, resourceIds⟩,
    dataSection := (files.map (fun f => f.content)).flatten,
    footerMagic := "NMRF" }

/-! ## BuildSystem::packResources (build_system.cpp:691-823)

Only the pack-partition logic is claim-relevant: which `.nmres` files get
produced and which ones the generated `packs_index.json` lists.  The asset
mapping is the `m_assetMapping` association (source path, VFS path); all
mapped assets exist in staging (the Index stage just copied them) and pack
writes succeed. -/

/-- The locale test applied to one VFS path and one language:
`vfsPath.find("/"+lang+"/") != npos || vfsPath.find(lang+"/") == 0`. -/
def vfsMatchesLang (vfsPath lang : String) : Bool :=
  containsSubL ("/" ++ lang ++ "/").data vfsPath.data ||
    startsWithL (lang ++ "/").data vfsPath.data

/-- A VFS path is locale-specific when it matches any included language. -/
def isLocaleSpecific (vfsPath : String) (langs : List String) : Bool :=
  langs.any (fun lang => vfsMatchesLang vfsPath lang)

/-- The source paths routed into the pack of `lang`. -/
def langFiles (assetMapping : List (String × String)) (lang : String) :
    List String :=
  (assetMapping.filter (fun m => vfsMatchesLang m.2 lang)).map (fun m => m.1)

/-- The source paths routed into the Base pack. -/
def baseFiles (assetMapping : List (String × String)) (langs : List String) :
    List String :=
  (assetMapping.filter (fun m => !isLocaleSpecific m.2 langs)).map (fun m => m.1)

/-- Filename of the pack of `lang`. -/
def langPackName (lang : String) : String :=
  "Lang_" ++ lang ++ ".nmres"

/-- The `.nmres` files `packResources` writes into `<staging>/packs`:
`Base.nmres` always, plus one language pack per included language whose file
set is non-empty (an empty language is skipped without error). -/
def packResourcesPackFiles (assetMapping : List (String × String))
    (langs : List String) : List String :=
  "Base.nmres" :: langs.filterMap (fun lang =>
    if langFiles assetMapping lang = [] then none else some (langPackName lang))

/-- The pack filenames listed by the generated `packs_index.json`: the Base
entry always, plus each language whose pack file exists on disk (it exists
exactly when `packResources` just wrote it). -/
def packsIndexFilenames (assetMapping : List (String × String))
    (langs : List String) : List String :=
  "Base.nmres" :: langs.filterMap (fun lang =>
    if (packResourcesPackFiles assetMapping langs).contains (langPackName lang)
    then some (langPackName lang) else none)

/-! ## BuildSystem::runBuildPipeline / cleanup (build_system.cpp:312-452, 989-1002)

Stage bodies are abstracted to their success bits; the cooperative
cancellation flag can be raised while the Pack stage runs, and a cancel
check inside `packResources` may or may not fire before the stage would
otherwise finish. -/

/-- One build run, abstracted: per-stage success bits plus the cancellation
schedule relevant to the Pack stage. -/
structure PipelineScenario where
  preflightOk : Bool
  compileOk : Bool
  indexOk : Bool
  /-- Whether `cancelBuild` raises `m_cancelRequested` while the Pack stage runs. -/
  cancelDuringPack : Bool
  /-- one of `packResources`' in-loop cancel checks observes the flag. -/
  packSeesCancel : Bool
  packOk : Bool
  bundleOk : Bool
  verifyOk : Bool

/-- The observable outcome of `runBuildPipeline`: `BuildResult.success`,
`BuildProgress.wasCancelled`, and whether `<output>/.staging` still exists. -/
structure PipelineOutcome where
  resultSuccess : Bool
  wasCancelled : Bool
  stagingExists : Bool

/-- Model of `BuildSystem::cleanup`: removes the staging directory when the last
progress state was not successful; returns whether staging still exists. -/
def cleanup (wasSuccessful stagingExists : Bool) : Bool :=
  if !wasSuccessful then false else stagingExists

/-- Model of `BuildSystem::runBuildPipeline`: staging is created up front, the six
stages run sequentially under `if (success && !m_cancelRequested)`, staging
is promoted (moved away) only on full un-cancelled success, and `cleanup`
runs before `m_progress.wasSuccessful` is assigned — so `cleanup` always
sees `wasSuccessful = false` for the current build. -/
def runBuildPipeline (sc : PipelineScenario) : PipelineOutcome :=
  let sPre := sc.preflightOk
  let sCompile := if sPre then sc.compileOk else false
  let sIndex := if sCompile then sc.indexOk else false
  let packRuns := sIndex
  let cancel := packRuns && sc.cancelDuringPack
  let sPack := if packRuns then
      (if cancel && sc.packSeesCancel then false else sc.packOk) else false
  let sBundle := if sPack && !cancel then sc.bundleOk else sPack
  let sVerify := if sBundle && !cancel then sc.verifyOk else sBundle
  let promoted := sVerify && !cancel
  let stagingAfterMove := !promoted
  let stagingFinal := cleanup false stagingAfterMove
  ⟨sVerify && !cancel, cancel, stagingFinal⟩

/-! ## Progress reporting (build_system.cpp:206-212, 1004-1023)

`updateProgress` publishes
`progress = Σ weight(steps before current) + weight(current) · stepProgress`
to the `onProgressUpdate` callback.  `buildProgressEvents` lists the published
values of a full successful run; every real build (including failed or
cancelled ones, which only ever stop early) publishes a prefix of it. -/

/-- The six `progressWeight` values installed by `startBuild`
(0.05, 0.15, 0.10, 0.35, 0.25, 0.10 as exact rationals). -/
def stepWeights : List ℚ := [1/20, 3/20, 1/10, 7/20, 1/4, 1/10]

/-- Published values of one step: `cum + w * sp` for each in-step fraction. -/
def segVals (cum w : ℚ) (sps : List ℚ) : List ℚ :=
  sps.map (fun sp => cum + w * sp)

/-- Preflight in-step fractions: `beginStep` then 0.1, 0.5, 0.7, 0.9. -/
def preflightSps : List ℚ := [0, 1/10, 1/2, 7/10, 9/10]

/-- Compile/Index in-step fractions: `beginStep` then `k/n` before item `k`. -/
def perFileSps (n : ℕ) : List ℚ :=
  0 :: (List.range n).map (fun k : ℕ => (k : ℚ) / n)

/-- The language-pack loop of `packResources`: before language `j` it
publishes `0.3 + 0.6 · built/n` where `built` counts the packs actually
built so far (`flags` records which languages get a pack). -/
def langSps (n : ℕ) : ℕ → List Bool → List ℚ
  | _, [] => []
  | built, f :: rest =>
      (3/10 + (3/5) * ((built : ℚ) / n)) ::
        langSps n (if f then built + 1 else built) rest

/-- Pack in-step fractions: `beginStep`; if `packAssets` also 0.1, the
language loop, and 0.95. -/
def packSps (packAssets : Bool) (langBuilt : List Bool) : List ℚ :=
  if packAssets then
    0 :: 1/10 :: (langSps langBuilt.length 0 langBuilt ++ [19/20])
  else [0]

/-- Bundle in-step fractions: `beginStep` then 0.2, 0.8. -/
def bundleSps : List ℚ := [0, 1/5, 4/5]

/-- Verify in-step fractions: `beginStep`, 0.2, 0.5, optionally 0.7 when
signing was requested, then 0.9. -/
def verifySps (signing : Bool) : List ℚ :=
  [0, 1/5, 1/2] ++ (if signing then [7/10] else []) ++ [9/10]

/-- Shape parameters of one build run, as far as progress events go. -/
structure BuildRunShape where
  numScripts : ℕ
  numAssets : ℕ
  packAssets : Bool
  langBuilt : List Bool
  signing : Bool

/-- All `progress` values published to `onProgressUpdate` during a full
successful run of the pipeline, in order. -/
def buildProgressEvents (p : BuildRunShape) : List ℚ :=
  segVals 0 (1/20) preflightSps
    ++ segVals (1/20) (3/20) (perFileSps p.numScripts)
    ++ segVals (1/5) (1/10) (perFileSps p.numAssets)
    ++ segVals (3/10) (7/20) (packSps p.packAssets p.langBuilt)
    ++ segVals (13/20) (1/4) bundleSps
    ++ segVals (9/10) (1/10) (verifySps p.signing)

/-! ## BuildSizeAnalyzer (build_size_analyzer.cpp)

`analyze` scans assets, hashes each one (`computeFileHash`), groups paths by
hash (`m_hashToFiles`, embedded as an association list in first-insertion
order), detects duplicates and generates sorted suggestions. -/

/-- One scanned asset: its path and byte content. -/
structure ScannedAsset where
  path : String
  content : List (Fin 256)
deriving DecidableEq

/-- Model of `BuildSizeAnalyzer::computeFileHash`: `u64 hash = size`, then
`hash = hash*31 + byte` over the first 1KB and — when the file exceeds 2KB —
the last 1KB.  (The code renders this value in hex; the rendering is
injective, so the `u64` value itself is kept.) -/
def computeFileHash (content : List (Fin 256)) : ℕ :=
  let size := content.length
  let firstChunk := content.take 1024
  let lastChunk := if 2048 < size then content.drop (size - 1024) else []
  (firstChunk ++ lastChunk).foldl (fun h b => (h * 31 + b.val) % 2 ^ 64)
    (size % 2 ^ 64)

/-- One insertion `m_hashToFiles[hash].push_back(path)`. -/
def insertHash : List (ℕ × List String) → ℕ → String → List (ℕ × List String)
  | [], h, p => [(h, [p])]
  | (h', ps) :: rest, h, p =>
      if h' = h then (h', ps ++ [p]) :: rest
      else (h', ps) :: insertHash rest h p

/-- State of `m_hashToFiles` after `analyzeAsset` ran over every scanned asset in scan
order. -/
def hashToFiles (assets : List ScannedAsset) : List (ℕ × List String) :=
  assets.foldl (fun m a => insertHash m (computeFileHash a.content) a.path) []

/-- Proof helper: the bucket stored under key `h` in the hash→files
association list (empty when absent). -/
def groupOf (m : List (ℕ × List String)) (h : ℕ) : List String :=
  match m.find? (fun g => g.1 == h) with
  | some g => g.2
  | none => []

/-- Proof helper: the keys of the hash→files association list. -/
def keysOf (m : List (ℕ × List String)) : List ℕ :=
  m.map (fun g => g.1)

/-- A `DuplicateGroup` as built by `detectDuplicates`. -/
structure DuplicateGroup where
  groupHash : ℕ
  paths : List String
  singleFileSize : ℕ
  wastedSpace : ℕ

/-- The "find size of first file" loop: `originalSize` of the first asset in
scan order whose path matches. -/
def firstFileSize (assets : List ScannedAsset) (p : String) : ℕ :=
  match assets.find? (fun a => a.path == p) with
  | some a => a.content.length
  | none => 0

/-- Model of `BuildSizeAnalyzer::detectDuplicates`: every hash bucket with more than
one path becomes one group with
`wastedSpace = singleFileSize * (paths.size() - 1)`. -/
def detectDuplicates (assets : List ScannedAsset) : List DuplicateGroup :=
  (hashToFiles assets).filterMap (fun g =>
    if 1 < g.2.length then
      some ⟨g.1, g.2, firstFileSize assets (g.2.headD ""),
            firstFileSize assets (g.2.headD "") * (g.2.length - 1)⟩
    else none)

/-- Whether the marking loop of `detectDuplicates` sets `isDuplicate` on the
asset at path `p`: it does so exactly for the non-first members of each
group. -/
def isMarkedDuplicate (assets : List ScannedAsset) (p : String) : Bool :=
  (detectDuplicates assets).any (fun g => (g.paths.drop 1).contains p)

/-! ## BuildSizeAnalyzer::generateSuggestions (build_size_analyzer.cpp:743-818) -/

inductive SuggestionType
  | RemoveDuplicate | CompressImage | CompressAudio | RemoveUnused
deriving DecidableEq

inductive SuggestionPriority
  | Low | Medium | High | Critical
deriving DecidableEq

inductive AssetCategory
  | Images | Audio | Scripts | Fonts | Video | Data | Other
deriving DecidableEq

/-- An `OptimizationSuggestion` (the display-only `description` string is
omitted). -/
structure OptimizationSuggestion where
  priority : SuggestionPriority
  sugType : SuggestionType
  assetPath : String
  estimatedSavings : ℕ
  canAutoFix : Bool
deriving DecidableEq

/-- The state of one asset when `generateSuggestions` runs. -/
structure AnalyzedAsset where
  path : String
  category : AssetCategory
  originalSize : ℕ
  isOversized : Bool

/-- One `RemoveDuplicate` suggestion per duplicate group
(`assetPath = dup.paths[1]`, savings = one copy). -/
def duplicateSuggestions (dups : List DuplicateGroup) :
    List OptimizationSuggestion :=
  dups.map (fun d =>
    ⟨.High, .RemoveDuplicate, d.paths.getD 1 "", d.singleFileSize, true⟩)

/-- The per-asset loop: a `CompressImage` (half the size) and/or
`CompressAudio` (a third of the size) suggestion for oversized assets. -/
def oversizedSuggestions : List AnalyzedAsset → List OptimizationSuggestion
  | [] => []
  | a :: rest =>
      ((if a.category = AssetCategory.Images ∧ a.isOversized = true then
          [⟨.Medium, .CompressImage, a.path, a.originalSize / 2, false⟩] else [])
        ++ (if a.category = AssetCategory.Audio ∧ a.isOversized = true then
          [⟨.Medium, .CompressAudio, a.path, a.originalSize / 3, false⟩] else []))
        ++ oversizedSuggestions rest

/-- One `RemoveUnused` suggestion per unused path that matches an asset. -/
def unusedSuggestions (assets : List AnalyzedAsset) :
    List String → List OptimizationSuggestion
  | [] => []
  | u :: rest =>
      (match assets.find? (fun a => a.path == u) with
        | some a => [⟨.High, .RemoveUnused, a.path, a.originalSize, true⟩]
        | none => []) ++ unusedSuggestions assets rest

/-- The suggestion list before the final sort. -/
def rawSuggestions (dups : List DuplicateGroup) (assets : List AnalyzedAsset)
    (unused : List String) : List OptimizationSuggestion :=
  duplicateSuggestions dups ++ oversizedSuggestions assets
    ++ unusedSuggestions assets unused

/-- Insertion step of the descending-by-savings sort. -/
def insertBySavingsDesc (s : OptimizationSuggestion) :
    List OptimizationSuggestion → List OptimizationSuggestion
  | [] => [s]
  | t :: ts =>
      if t.estimatedSavings < s.estimatedSavings then s :: t :: ts
      else t :: insertBySavingsDesc s ts

/-- The final `std::sort(..., a.estimatedSavings > b.estimatedSavings)`,
embedded as an insertion sort with the same ordering contract. -/
def sortBySavingsDesc : List OptimizationSuggestion → List OptimizationSuggestion
  | [] => []
  | s :: ss => insertBySavingsDesc s (sortBySavingsDesc ss)

/-- Model of `BuildSizeAnalyzer::generateSuggestions`: build the raw list, then sort
it descending by estimated savings. -/
def generateSuggestions (dups : List DuplicateGroup)
    (assets : List AnalyzedAsset) (unused : List String) :
    List OptimizationSuggestion :=
  sortBySavingsDesc (rawSuggestions dups assets unused)

/-- Proof helper: the same descending insertion on the bare savings keys. -/
def natInsertDesc (x : ℕ) : List ℕ → List ℕ
  | [] => [x]
  | y :: ys => if y < x then x :: y :: ys else y :: natInsertDesc x ys

/-- Proof helper: descending sort of the bare savings keys. -/
def natSortDesc : List ℕ → List ℕ
  | [] => []
  | x :: xs => natInsertDesc x (natSortDesc xs)

/-! ## Helper lemmas -/

theorem startsWithL_refl (l : List Char) : startsWithL l l = true := by
  induction l with
  | nil => rfl
  | cons c rest ih => simp [startsWithL, ih]

theorem containsSubL_self (n : List Char) : containsSubL n n = true := by
  cases n with
  | nil => rfl
  | cons c rest => simp [containsSubL, startsWithL_refl]

theorem containsSubL_nil_left (l : List Char) : containsSubL [] l = true := by
  cases l with
  | nil => rfl
  | cons c rest => simp [containsSubL, startsWithL]

theorem containsSubL_append_self (pre n : List Char) :
    containsSubL n (pre ++ n) = true := by
  induction pre with
  | nil => simpa using containsSubL_self n
  | cons c rest ih => simp [containsSubL, ih]

theorem strContains_append_self (pre s : String) :
    strContains (pre ++ s) s = true := by
  unfold strContains
  rw [String.data_append]
  exact containsSubL_append_self pre.data s.data

theorem stringDataEq {s t : String} (h : s.data = t.data) : s = t := by
  cases s with
  | mk d1 =>
    cases t with
    | mk d2 => cases h; rfl

/-! ## C2: startBuild with a non-existent project path -/

/-- C2, counterexample. The claim quantifies over every `BuildConfig` whose
`projectPath` does not exist, but `startBuild` checks `outputPath.empty()`
before `fs::exists(projectPath)`: with a non-existent project path and an
empty output path it fails with "Output path is required", which does not
contain the project path. -/
theorem startBuild_missing_project_counterexample :
    (startBuild false (fun _ => false)
        ⟨"/nope", "", false, false, [], ""⟩).result
      = .error "Output path is required" ∧
    strContains "Output path is required" "/nope" = false := by
  constructor
  · rfl
  · decide

/-- C2, amended: for every `BuildConfig` whose `projectPath` does not exist
and whose `outputPath` is non-empty, `startBuild` (invoked with no build in
progress) returns an error synchronously, the error message contains the
`projectPath` string, and the worker thread — the only code that creates the
staging directory — is never spawned, so no staging directory is created. -/
theorem startBuild_missing_project_fails_sync (fsEx : String → Bool)
    (config : BuildConfig) (hmiss : fsEx config.projectPath = false)
    (hout : config.outputPath ≠ "") :
    (∃ e, (startBuild false fsEx config).result = Except.error e ∧
      strContains e config.projectPath = true) ∧
    startBuildCreatesStaging false fsEx config = false := by
  unfold startBuildCreatesStaging startBuild
  by_cases hproj : config.projectPath = ""
  · refine ⟨⟨"Project path is required", ?_, ?_⟩, ?_⟩
    · simp [hproj]
    · rw [hproj]
      exact containsSubL_nil_left _
    · simp [hproj]
  · refine ⟨⟨"Project path does not exist: " ++ config.projectPath, ?_, ?_⟩, ?_⟩
    · simp [hproj, hout, hmiss]
    · exact strContains_append_self _ _
    · simp [hproj, hout, hmiss]

/-- C2 witness: a concrete missing project path with a non-empty output
path. -/
theorem startBuild_missing_project_witness :
    ((fun _ => false : String → Bool) "/miss" = false ∧ "/out" ≠ "") ∧
    ((∃ e, (startBuild false (fun _ => false)
        ⟨"/miss", "/out", false, false, [], ""⟩).result = Except.error e ∧
      strContains e "/miss" = true) ∧
    startBuildCreatesStaging false (fun _ => false)
        ⟨"/miss", "/out", false, false, [], ""⟩ = false) :=
  ⟨⟨rfl, by decide⟩,
    startBuild_missing_project_fails_sync (fun _ => false)
      ⟨"/miss", "/out", false, false, [], ""⟩ rfl (by decide)⟩

/-! ## C9: validateProject is total -/

/-- C9: `validateProject` never returns an error `Result`: every input yields
`ok` carrying the validation-error strings; a non-existent directory yields
the one-element list; a directory with `project.json`, `scripts/` and
`assets/` yields the empty list. -/
theorem validateProject_total :
    (∀ (fsEx : String → Bool) (p : String),
      ∃ errs, validateProject fsEx p = .ok errs) ∧
    (∀ (fsEx : String → Bool) (p : String), fsEx p = false →
      validateProject fsEx p = .ok ["Project directory does not exist: " ++ p]) ∧
    (∀ (fsEx : String → Bool) (p : String), fsEx p = true →
      fsEx (p ++ "/project.json") = true → fsEx (p ++ "/scripts") = true →
      fsEx (p ++ "/assets") = true → validateProject fsEx p = .ok []) := by
  refine ⟨fun fsEx p => ?_, fun fsEx p h => ?_, fun fsEx p h h1 h2 h3 => ?_⟩
  · unfold validateProject
    by_cases hq : fsEx p = false
    · rw [if_pos hq]
      exact ⟨_, rfl⟩
    · rw [if_neg hq]
      exact ⟨_, rfl⟩
  · simp [validateProject, h]
  · simp [validateProject, h, h1, h2, h3]

/-- C9 witness: concrete filesystems for the two interesting conclusions. -/
theorem validateProject_witness :
    validateProject (fun _ => false) "/proj"
      = .ok ["Project directory does not exist: " ++ "/proj"] ∧
    validateProject (fun _ => true) "/proj" = .ok [] :=
  ⟨validateProject_total.2.1 (fun _ => false) "/proj" rfl,
    validateProject_total.2.2 (fun _ => true) "/proj" rfl rfl rfl rfl⟩

/-! ## C4: cancellation while the Pack stage runs -/

/-- C4: if `cancelBuild` raises the cancellation flag while the Pack stage
is running (so Preflight, Compile and Index already succeeded), then at
completion `BuildResult.success` is false, `BuildProgress.wasCancelled` is
true, and the staging directory has been removed by `cleanup`. -/
theorem cancel_during_pack_outcome (sc : PipelineScenario)
    (h1 : sc.preflightOk = true) (h2 : sc.compileOk = true)
    (h3 : sc.indexOk = true) (hc : sc.cancelDuringPack = true) :
    (runBuildPipeline sc).resultSuccess = false ∧
    (runBuildPipeline sc).wasCancelled = true ∧
    (runBuildPipeline sc).stagingExists = false := by
  simp [runBuildPipeline, cleanup, h1, h2, h3, hc]

/-- C4 witness: a concrete run cancelled while packing. -/
theorem cancel_during_pack_witness :
    (runBuildPipeline ⟨true, true, true, true, true, true, true, true⟩).resultSuccess
        = false ∧
    (runBuildPipeline ⟨true, true, true, true, true, true, true, true⟩).wasCancelled
        = true ∧
    (runBuildPipeline ⟨true, true, true, true, true, true, true, true⟩).stagingExists
        = false :=
  cancel_during_pack_outcome ⟨true, true, true, true, true, true, true, true⟩
    rfl rfl rfl rfl

/-! ## buildPack lemmas -/

theorem buildEntries_length (files : List PackInputFile) (s d : ℕ) :
    (buildEntries files s d).length = files.length := by
  induction files generalizing s d with
  | nil => rfl
  | cons f rest ih => simp [buildEntries, ih]

theorem buildEntries_map_uncomp (files : List PackInputFile) (s d : ℕ) :
    (buildEntries files s d).map (fun en => en.uncompressedSize)
      = files.map (fun f => f.content.length) := by
  induction files generalizing s d with
  | nil => rfl
  | cons f rest ih => simp [buildEntries, ih]

theorem buildEntries_getD (files : List PackInputFile) (s d i : ℕ)
    (h : i < files.length) :
    (buildEntries files s d).getD i ⟨0, 0, 0, 0, 0, 0, 0⟩ =
      ⟨s + ((files.take i).map nameBytes).sum, 8,
       d + ((files.take i).map (fun f => f.content.length)).sum,
       (files.getD i ⟨"", []⟩).content.length,
       (files.getD i ⟨"", []⟩).content.length, 0, 0⟩ := by
  induction files generalizing s d i with
  | nil => exact absurd h (by simp)
  | cons f rest ih =>
    cases i with
    | zero => simp [buildEntries]
    | succ i =>
      have hi : i < rest.length := by simpa using h
      calc (buildEntries (f :: rest) s d).getD (i + 1) ⟨0, 0, 0, 0, 0, 0, 0⟩
          = (buildEntries rest (s + nameBytes f) (d + f.content.length)).getD i
              ⟨0, 0, 0, 0, 0, 0, 0⟩ := rfl
        _ = _ := by
          rw [ih _ _ _ hi]
          simp [Nat.add_assoc]

theorem take_map_sum_succ (files : List PackInputFile) (g : PackInputFile → ℕ)
    (i : ℕ) (h : i < files.length) :
    ((files.take (i + 1)).map g).sum
      = ((files.take i).map g).sum + g (files.getD i ⟨"", []⟩) := by
  induction files generalizing i with
  | nil => exact absurd h (by simp)
  | cons f rest ih =>
    cases i with
    | zero => simp
    | succ i =>
      have hi : i < rest.length := by simpa using h
      simp only [List.take_succ_cons, List.map_cons, List.sum_cons,
        List.getD_cons_succ]
      rw [ih i hi, Nat.add_assoc]

theorem getD_map_of_lt {α β : Type} (l : List α) (g : α → β) (i : ℕ)
    (h : i < l.length) (da : α) (db : β) :
    (l.map g).getD i db = g (l.getD i da) := by
  induction l generalizing i with
  | nil => exact absurd h (by simp)
  | cons a rest ih =>
    cases i with
    | zero => rfl
    | succ i =>
      have hi : i < rest.length := by simpa using h
      simpa using ih i hi

/-! ## C1: buildPack round-trip counts, order and sizes -/

/-- C1: for every list of N (readable) input files, the pack built by
`buildPack` has `resourceCount = N`, its string-table names appear in
input-file order and are the filenames of the inputs, its resource-table
entries carry the input sizes in input order, and the sum of the
`uncompressedSize` fields equals the sum of the actual input file sizes. -/
theorem buildPack_roundtrip (files : List PackInputFile)
    (encrypt compress : Bool) :
    (buildPack files encrypt compress).header.resourceCount = files.length ∧
    (buildPack files encrypt compress).stringTable.names
      = files.map (fun f => pathFilename f.path) ∧
    ((buildPack files encrypt compress).entries).map (fun en => en.uncompressedSize)
      = files.map (fun f => f.content.length) ∧
    (((buildPack files encrypt compress).entries).map
        (fun en => en.uncompressedSize)).sum
      = (files.map (fun f => f.content.length)).sum := by
  refine ⟨rfl, rfl, buildEntries_map_uncomp files 0 0, ?_⟩
  show ((buildEntries files 0 0).map (fun en => en.uncompressedSize)).sum = _
  rw [buildEntries_map_uncomp]

/-! ## C8: offsets are contiguous, string offsets cumulative -/

/-- C8: in every pack written by `buildPack`, the first resource-table
entry's `dataOffset` (and `stringOffset`) is 0, each subsequent entry's
`dataOffset` equals the previous entry's `dataOffset` plus the previous
file's size, and each entry's `stringOffset` equals the cumulative byte
length (null terminators included) of all preceding names. -/
theorem pack_offsets_contiguous (files : List PackInputFile)
    (encrypt compress : Bool) :
    (0 < (buildPack files encrypt compress).entries.length →
      ((buildPack files encrypt compress).entries.getD 0
          ⟨0, 0, 0, 0, 0, 0, 0⟩).dataOffset = 0 ∧
      ((buildPack files encrypt compress).entries.getD 0
          ⟨0, 0, 0, 0, 0, 0, 0⟩).stringOffset = 0) ∧
    (∀ i : ℕ, i + 1 < (buildPack files encrypt compress).entries.length →
      ((buildPack files encrypt compress).entries.getD (i + 1)
          ⟨0, 0, 0, 0, 0, 0, 0⟩).dataOffset
        = ((buildPack files encrypt compress).entries.getD i
            ⟨0, 0, 0, 0, 0, 0, 0⟩).dataOffset
          + (files.getD i ⟨"", []⟩).content.length) ∧
    (∀ i : ℕ, i < (buildPack files encrypt compress).entries.length →
      ((buildPack files encrypt compress).entries.getD i
          ⟨0, 0, 0, 0, 0, 0, 0⟩).stringOffset
        = ((files.take i).map nameBytes).sum) := by
  have hlen : (buildPack files encrypt compress).entries.length = files.length :=
    buildEntries_length files 0 0
  refine ⟨fun h0 => ?_, fun i hi => ?_, fun i hi => ?_⟩
  · rw [hlen] at h0
    have hE := buildEntries_getD files 0 0 0 h0
    constructor
    · show ((buildEntries files 0 0).getD 0 ⟨0, 0, 0, 0, 0, 0, 0⟩).dataOffset = 0
      rw [hE]
      simp
    · show ((buildEntries files 0 0).getD 0 ⟨0, 0, 0, 0, 0, 0, 0⟩).stringOffset = 0
      rw [hE]
      simp
  · rw [hlen] at hi
    have hi' : i < files.length := Nat.lt_of_succ_lt hi
    show ((buildEntries files 0 0).getD (i + 1) ⟨0, 0, 0, 0, 0, 0, 0⟩).dataOffset
      = ((buildEntries files 0 0).getD i ⟨0, 0, 0, 0, 0, 0, 0⟩).dataOffset
        + (files.getD i ⟨"", []⟩).content.length
    rw [buildEntries_getD files 0 0 (i + 1) hi, buildEntries_getD files 0 0 i hi']
    show 0 + ((files.take (i + 1)).map (fun f => f.content.length)).sum
      = 0 + ((files.take i).map (fun f => f.content.length)).sum
        + (files.getD i ⟨"", []⟩).content.length
    rw [Nat.zero_add, Nat.zero_add]
    exact take_map_sum_succ files (fun f => f.content.length) i hi'
  · rw [hlen] at hi
    show ((buildEntries files 0 0).getD i ⟨0, 0, 0, 0, 0, 0, 0⟩).stringOffset
      = ((files.take i).map nameBytes).sum
    rw [buildEntries_getD files 0 0 i hi]
    show 0 + ((files.take i).map nameBytes).sum = ((files.take i).map nameBytes).sum
    rw [Nat.zero_add]

/-- C8 witness: a concrete two-file pack. -/
theorem pack_offsets_witness :
    ((buildPack [⟨"a/x.png", [7]⟩, ⟨"y.bin", [1, 2]⟩] true false).entries.getD 1
        ⟨0, 0, 0, 0, 0, 0, 0⟩).dataOffset
      = ((buildPack [⟨"a/x.png", [7]⟩, ⟨"y.bin", [1, 2]⟩] true false).entries.getD 0
          ⟨0, 0, 0, 0, 0, 0, 0⟩).dataOffset
        + (([⟨"a/x.png", [7]⟩, ⟨"y.bin", [1, 2]⟩] :
            List PackInputFile).getD 0 ⟨"", []⟩).content.length ∧
    ((buildPack [⟨"a/x.png", [7]⟩, ⟨"y.bin", [1, 2]⟩] true false).entries.getD 1
        ⟨0, 0, 0, 0, 0, 0, 0⟩).stringOffset
      = ((([⟨"a/x.png", [7]⟩, ⟨"y.bin", [1, 2]⟩] :
          List PackInputFile).take 1).map nameBytes).sum :=
  ⟨(pack_offsets_contiguous [⟨"a/x.png", [7]⟩, ⟨"y.bin", [1, 2]⟩] true false).2.1 0
      (by decide),
    (pack_offsets_contiguous [⟨"a/x.png", [7]⟩, ⟨"y.bin", [1, 2]⟩] true false).2.2 1
      (by decide)⟩

/-! ## C10: recorded names are the filename components -/

/-- C10: `buildPack` records each resource's name as only the final filename
component of its input path; in particular two input files (at possibly
distinct positions) whose paths share the same base filename produce
identical name entries in the string table. -/
theorem buildPack_names_are_filenames (files : List PackInputFile)
    (encrypt compress : Bool) :
    (buildPack files encrypt compress).stringTable.names
      = files.map (fun f => pathFilename f.path) ∧
    ∀ i j : ℕ, i < files.length → j < files.length →
      pathFilename (files.getD i ⟨"", []⟩).path
        = pathFilename (files.getD j ⟨"", []⟩).path →
      (buildPack files encrypt compress).stringTable.names.getD i ""
        = (buildPack files encrypt compress).stringTable.names.getD j "" := by
  refine ⟨rfl, fun i j hi hj hname => ?_⟩
  show (files.map (fun f => pathFilename f.path)).getD i ""
    = (files.map (fun f => pathFilename f.path)).getD j ""
  rw [getD_map_of_lt files _ i hi ⟨"", []⟩ "",
    getD_map_of_lt files _ j hj ⟨"", []⟩ ""]
  exact hname

/-- C10 witness: `a/x.png` and `b/x.png` yield two identical name entries. -/
theorem buildPack_names_witness :
    (buildPack [⟨"a/x.png", []⟩, ⟨"b/x.png", []⟩] false false).stringTable.names.getD 0 ""
      = (buildPack [⟨"a/x.png", []⟩, ⟨"b/x.png", []⟩] false false).stringTable.names.getD 1 "" :=
  (buildPack_names_are_filenames [⟨"a/x.png", []⟩, ⟨"b/x.png", []⟩] false false).2
    0 1 (by decide) (by decide) (by decide)

/-! ## C5: language pack partition lemmas -/

theorem langPackName_ne_base (lang : String) : langPackName lang ≠ "Base.nmres" := by
  intro h
  have hd := congrArg String.data h
  rw [langPackName, String.data_append, String.data_append] at hd
  have h1 : (("Lang_".data ++ lang.data) ++ ".nmres".data).head? = some 'L' := rfl
  rw [hd] at h1
  exact absurd h1 (by decide)

theorem langPackName_inj {l₁ l₂ : String} (h : langPackName l₁ = langPackName l₂) :
    l₁ = l₂ := by
  have hd := congrArg String.data h
  rw [langPackName, langPackName, String.data_append, String.data_append,
    String.data_append, String.data_append] at hd
  exact stringDataEq (List.append_cancel_left (List.append_cancel_right hd))

/-- C5: with `includedLanguages = ["en","ru"]` where only "en" has matching
assets, `packResources` writes `Base.nmres` and `Lang_en.nmres` but no
`Lang_ru.nmres`, and `packs_index.json` lists exactly those two; in general
a language with zero matching files is skipped without error and omitted
from both the pack set and the index. -/
theorem packResources_language_packs :
    (∀ mapping : List (String × String),
      langFiles mapping "en" ≠ [] → langFiles mapping "ru" = [] →
      packResourcesPackFiles mapping ["en", "ru"]
          = ["Base.nmres", "Lang_en.nmres"] ∧
      packsIndexFilenames mapping ["en", "ru"]
          = ["Base.nmres", "Lang_en.nmres"]) ∧
    (∀ (mapping : List (String × String)) (langs : List String) (lang : String),
      lang ∈ langs → langFiles mapping lang = [] →
      langPackName lang ∉ packResourcesPackFiles mapping langs ∧
      langPackName lang ∉ packsIndexFilenames mapping langs) := by
  have hnotbuilt : ∀ (mapping : List (String × String)) (langs : List String)
      (lang : String), langFiles mapping lang = [] →
      langPackName lang ∉ packResourcesPackFiles mapping langs := by
    intro mapping langs lang hempty hin
    rcases List.mem_cons.1 hin with h | h
    · exact langPackName_ne_base lang h
    · rcases List.mem_filterMap.1 h with ⟨l', _, hf⟩
      by_cases hc : langFiles mapping l' = []
      · rw [if_pos hc] at hf
        exact Option.noConfusion hf
      · rw [if_neg hc] at hf
        have heq : l' = lang := langPackName_inj (Option.some.inj hf)
        rw [heq] at hc
        exact hc hempty
  constructor
  · intro mapping h_en h_ru
    have hp : packResourcesPackFiles mapping ["en", "ru"]
        = ["Base.nmres", "Lang_en.nmres"] := by
      simp [packResourcesPackFiles, h_en, h_ru, langPackName]
    refine ⟨hp, ?_⟩
    unfold packsIndexFilenames
    rw [hp]
    decide
  · intro mapping langs lang hmem hempty
    refine ⟨hnotbuilt mapping langs lang hempty, ?_⟩
    intro hin
    rcases List.mem_cons.1 hin with h | h
    · exact langPackName_ne_base lang h
    · rcases List.mem_filterMap.1 h with ⟨l', _, hf⟩
      by_cases hc : (packResourcesPackFiles mapping langs).contains (langPackName l')
      · rw [if_pos hc] at hf
        have heq : l' = lang := langPackName_inj (Option.some.inj hf)
        rw [heq] at hc
        have hmem' : langPackName lang ∈ packResourcesPackFiles mapping langs := by
          simpa using hc
        exact hnotbuilt mapping langs lang hempty hmem'
      · rw [if_neg hc] at hf
        exact Option.noConfusion hf

/-- C5 witness: one "en" asset, one base asset, no "ru" assets. -/
theorem packResources_language_packs_witness :
    packResourcesPackFiles [("s1", "en/a.png"), ("s2", "bg.png")] ["en", "ru"]
        = ["Base.nmres", "Lang_en.nmres"] ∧
    packsIndexFilenames [("s1", "en/a.png"), ("s2", "bg.png")] ["en", "ru"]
        = ["Base.nmres", "Lang_en.nmres"] ∧
    langPackName "ru" ∉
      packResourcesPackFiles [("s1", "en/a.png"), ("s2", "bg.png")] ["en", "ru"] :=
  ⟨(packResources_language_packs.1 [("s1", "en/a.png"), ("s2", "bg.png")]
      (by decide) (by decide)).1,
    (packResources_language_packs.1 [("s1", "en/a.png"), ("s2", "bg.png")]
      (by decide) (by decide)).2,
    (packResources_language_packs.2 [("s1", "en/a.png"), ("s2", "bg.png")]
      ["en", "ru"] "ru" (by decide) (by decide)).1⟩

/-! ## C7: suggestions sorted descending by estimated savings -/

theorem mem_insertBySavingsDesc {s x : OptimizationSuggestion}
    {l : List OptimizationSuggestion} (h : x ∈ insertBySavingsDesc s l) :
    x = s ∨ x ∈ l := by
  induction l with
  | nil => simpa [insertBySavingsDesc] using h
  | cons t ts ih =>
    rw [insertBySavingsDesc] at h
    by_cases hc : t.estimatedSavings < s.estimatedSavings
    · rw [if_pos hc] at h
      rcases List.mem_cons.1 h with rfl | h
      · exact Or.inl rfl
      · exact Or.inr h
    · rw [if_neg hc] at h
      rcases List.mem_cons.1 h with rfl | h
      · exact Or.inr (List.mem_cons_self _ _)
      · rcases ih h with rfl | h
        · exact Or.inl rfl
        · exact Or.inr (List.mem_cons_of_mem _ h)

theorem pairwise_insertBySavingsDesc (s : OptimizationSuggestion)
    (l : List OptimizationSuggestion)
    (h : l.Pairwise (fun a b => b.estimatedSavings ≤ a.estimatedSavings)) :
    (insertBySavingsDesc s l).Pairwise
      (fun a b => b.estimatedSavings ≤ a.estimatedSavings) := by
  induction l with
  | nil => simp [insertBySavingsDesc]
  | cons t ts ih =>
    rw [insertBySavingsDesc]
    by_cases hc : t.estimatedSavings < s.estimatedSavings
    · rw [if_pos hc]
      refine List.pairwise_cons.2 ⟨?_, h⟩
      intro x hx
      rcases List.mem_cons.1 hx with rfl | hx
      · exact le_of_lt hc
      · exact le_trans ((List.pairwise_cons.1 h).1 x hx) (le_of_lt hc)
    · rw [if_neg hc]
      have h1 := List.pairwise_cons.1 h
      refine List.pairwise_cons.2 ⟨?_, ih h1.2⟩
      intro x hx
      rcases mem_insertBySavingsDesc hx with rfl | hx
      · exact le_of_not_lt hc
      · exact h1.1 x hx

theorem pairwise_sortBySavingsDesc (l : List OptimizationSuggestion) :
    (sortBySavingsDesc l).Pairwise
      (fun a b => b.estimatedSavings ≤ a.estimatedSavings) := by
  induction l with
  | nil => simp [sortBySavingsDesc]
  | cons s ss ih => exact pairwise_insertBySavingsDesc s _ ih

theorem map_insertBySavingsDesc (s : OptimizationSuggestion)
    (l : List OptimizationSuggestion) :
    (insertBySavingsDesc s l).map (fun t => t.estimatedSavings)
      = natInsertDesc s.estimatedSavings (l.map (fun t => t.estimatedSavings)) := by
  induction l with
  | nil => rfl
  | cons t ts ih =>
    rw [insertBySavingsDesc, List.map_cons, natInsertDesc]
    by_cases hc : t.estimatedSavings < s.estimatedSavings
    · rw [if_pos hc, if_pos hc]
      rfl
    · rw [if_neg hc, if_neg hc, List.map_cons, ih]

theorem map_sortBySavingsDesc (l : List OptimizationSuggestion) :
    (sortBySavingsDesc l).map (fun t => t.estimatedSavings)
      = natSortDesc (l.map (fun t => t.estimatedSavings)) := by
  induction l with
  | nil => rfl
  | cons s ss ih =>
    rw [sortBySavingsDesc, List.map_cons, natSortDesc, map_insertBySavingsDesc, ih]

/-- C7: after `generateSuggestions` runs, the suggestion list is sorted in
descending order of `estimatedSavings`; and whenever the raw suggestions
carry savings `[500, 2000, 100]`, the resulting order is `[2000, 500, 100]`. -/
theorem generateSuggestions_sorted_desc :
    (∀ (dups : List DuplicateGroup) (assets : List AnalyzedAsset)
        (unused : List String),
      (generateSuggestions dups assets unused).Pairwise
        (fun a b => b.estimatedSavings ≤ a.estimatedSavings)) ∧
    (∀ (dups : List DuplicateGroup) (assets : List AnalyzedAsset)
        (unused : List String),
      (rawSuggestions dups assets unused).map (fun s => s.estimatedSavings)
          = [500, 2000, 100] →
      (generateSuggestions dups assets unused).map (fun s => s.estimatedSavings)
          = [2000, 500, 100]) := by
  constructor
  · intro dups assets unused
    exact pairwise_sortBySavingsDesc _
  · intro dups assets unused h
    rw [generateSuggestions, map_sortBySavingsDesc, h]
    decide

/-- C7 witness: two duplicate groups (savings 500 and 2000) and one oversized
image (savings 100) come out ordered `[2000, 500, 100]`. -/
theorem generateSuggestions_sorted_witness :
    (generateSuggestions
        [⟨0, ["p", "q"], 500, 500⟩, ⟨1, ["r", "r2"], 2000, 2000⟩]
        [⟨"img.png", AssetCategory.Images, 200, true⟩] []).map
        (fun s => s.estimatedSavings)
      = [2000, 500, 100] :=
  generateSuggestions_sorted_desc.2
    [⟨0, ["p", "q"], 500, 500⟩, ⟨1, ["r", "r2"], 2000, 2000⟩]
    [⟨"img.png", AssetCategory.Images, 200, true⟩] [] (by decide)

/-! ## C6: duplicate-detection lemmas -/

theorem groupOf_nil (h : ℕ) : groupOf [] h = [] := rfl

theorem groupOf_cons (k : ℕ) (v : List String) (rest : List (ℕ × List String))
    (h : ℕ) : groupOf ((k, v) :: rest) h = if k = h then v else groupOf rest h := by
  by_cases hk : k = h
  · rw [if_pos hk]
    unfold groupOf
    rw [List.find?_cons_of_pos _ (by simpa using hk)]
  · rw [if_neg hk]
    unfold groupOf
    rw [List.find?_cons_of_neg _ (by simpa using hk)]

theorem groupOf_insertHash (m : List (ℕ × List String)) (h' : ℕ) (p : String)
    (h : ℕ) : groupOf (insertHash m h' p) h
      = if h = h' then groupOf m h ++ [p] else groupOf m h := by
  induction m with
  | nil =>
    rw [insertHash, groupOf_cons, groupOf_nil]
    by_cases hq : h = h'
    · rw [if_pos hq, if_pos hq.symm]
      rfl
    · rw [if_neg hq, if_neg (fun hh => hq hh.symm)]
  | cons g rest ih =>
    obtain ⟨k, v⟩ := g
    rw [insertHash]
    by_cases h1 : k = h'
    · rw [if_pos h1, groupOf_cons, groupOf_cons]
      by_cases hk : k = h
      · have hq : h = h' := hk.symm.trans h1
        rw [if_pos hk, if_pos hq, if_pos hk]
      · have hq : ¬ h = h' := fun hh => hk (h1.trans hh.symm)
        rw [if_neg hk, if_neg hq, if_neg hk]
    · rw [if_neg h1, groupOf_cons, groupOf_cons]
      by_cases hk : k = h
      · have hq : ¬ h = h' := fun hh => h1 (hk.trans hh)
        rw [if_pos hk, if_neg hq, if_pos hk]
      · rw [if_neg hk, ih]
        by_cases hq : h = h'
        · rw [if_pos hq, if_pos hq, if_neg hk]
        · rw [if_neg hq, if_neg hq, if_neg hk]

theorem groupOf_foldl (assets : List ScannedAsset) :
    ∀ (m : List (ℕ × List String)) (h : ℕ),
      groupOf (assets.foldl
          (fun m a => insertHash m (computeFileHash a.content) a.path) m) h
        = groupOf m h
          ++ (assets.filter (fun a => computeFileHash a.content == h)).map
              (fun a => a.path) := by
  induction assets with
  | nil => simp
  | cons a rest ih =>
    intro m h
    rw [List.foldl_cons, ih, groupOf_insertHash]
    by_cases hq : h = computeFileHash a.content
    · rw [if_pos hq, List.filter_cons,
        if_pos (by simpa using hq.symm), List.map_cons, List.append_assoc]
      rfl
    · rw [if_neg hq, List.filter_cons,
        if_neg (by simpa using fun hh => hq hh.symm)]

theorem groupOf_hashToFiles (assets : List ScannedAsset) (h : ℕ) :
    groupOf (hashToFiles assets) h
      = (assets.filter (fun a => computeFileHash a.content == h)).map
          (fun a => a.path) := by
  have := groupOf_foldl assets [] h
  rw [groupOf_nil] at this
  simpa [hashToFiles] using this

theorem keysOf_insertHash (m : List (ℕ × List String)) (h : ℕ) (p : String) :
    keysOf (insertHash m h p)
      = if h ∈ keysOf m then keysOf m else keysOf m ++ [h] := by
  induction m with
  | nil => simp [insertHash, keysOf]
  | cons g rest ih =>
    obtain ⟨k, v⟩ := g
    rw [insertHash]
    by_cases h1 : k = h
    · rw [if_pos h1]
      have hmem : h ∈ keysOf ((k, v) :: rest) := by
        simp [keysOf, h1.symm]
      rw [if_pos hmem]
      simp [keysOf]
    · rw [if_neg h1]
      have hks : keysOf ((k, v) :: insertHash rest h p)
          = k :: keysOf (insertHash rest h p) := rfl
      have hks2 : keysOf ((k, v) :: rest) = k :: keysOf rest := rfl
      rw [hks, ih, hks2]
      by_cases hm : h ∈ keysOf rest
      · rw [if_pos hm, if_pos (List.mem_cons_of_mem _ hm)]
      · rw [if_neg hm, if_neg (by
          intro hc
          rcases List.mem_cons.1 hc with hc | hc
          · exact h1 hc.symm
          · exact hm hc)]
        rfl

theorem nodup_keys_insertHash (m : List (ℕ × List String)) (h : ℕ) (p : String)
    (hn : (keysOf m).Nodup) : (keysOf (insertHash m h p)).Nodup := by
  rw [keysOf_insertHash]
  by_cases hm : h ∈ keysOf m
  · rw [if_pos hm]
    exact hn
  · rw [if_neg hm]
    simp [List.nodup_append, hn, hm]

theorem nodup_keys_foldl (assets : List ScannedAsset) :
    ∀ m : List (ℕ × List String), (keysOf m).Nodup →
      (keysOf (assets.foldl
          (fun m a => insertHash m (computeFileHash a.content) a.path) m)).Nodup := by
  induction assets with
  | nil => exact fun m hm => hm
  | cons a rest ih =>
    intro m hm
    rw [List.foldl_cons]
    exact ih _ (nodup_keys_insertHash m _ _ hm)

theorem nodup_keys_hashToFiles (assets : List ScannedAsset) :
    (keysOf (hashToFiles assets)).Nodup :=
  nodup_keys_foldl assets [] (by simp [keysOf])

theorem find?_eq_of_mem_of_nodup_keys (m : List (ℕ × List String))
    (hn : (keysOf m).Nodup) (g : ℕ × List String) (hg : g ∈ m) :
    m.find? (fun x => x.1 == g.1) = some g := by
  induction m with
  | nil => cases hg
  | cons b rest ih =>
    obtain ⟨k, v⟩ := b
    have hn' : k ∉ keysOf rest ∧ (keysOf rest).Nodup := by
      have : (k :: keysOf rest).Nodup := hn
      exact List.nodup_cons.1 this
    rcases List.mem_cons.1 hg with rfl | hg'
    · exact List.find?_cons_of_pos _ (by simp)
    · have hk : ((k, v).1 == g.1) = false := by
        simp only [beq_eq_false_iff_ne, ne_eq]
        intro hkk
        exact hn'.1 (hkk ▸ List.mem_map_of_mem (fun x => x.1) hg')
      simp only [List.find?_cons, hk]
      exact ih hn'.2 hg'

theorem groupOf_eq_of_mem (m : List (ℕ × List String))
    (hn : (keysOf m).Nodup) (g : ℕ × List String) (hg : g ∈ m) :
    groupOf m g.1 = g.2 := by
  unfold groupOf
  rw [find?_eq_of_mem_of_nodup_keys m hn g hg]

theorem exists_group_of_groupOf_ne_nil (m : List (ℕ × List String)) (h : ℕ)
    (hne : groupOf m h ≠ []) :
    ∃ g ∈ m, g.1 = h ∧ g.2 = groupOf m h := by
  unfold groupOf at hne ⊢
  cases hf : m.find? (fun x => x.1 == h) with
  | none =>
    rw [hf] at hne
    exact absurd rfl hne
  | some g =>
    exact ⟨g, List.mem_of_find?_eq_some hf, by simpa using List.find?_some hf, rfl⟩

theorem find?_path_of_nodup (assets : List ScannedAsset)
    (hnd : (assets.map (fun a => a.path)).Nodup) (a : ScannedAsset)
    (ha : a ∈ assets) : assets.find? (fun x => x.path == a.path) = some a := by
  induction assets with
  | nil => cases ha
  | cons b rest ih =>
    have hn' : b.path ∉ rest.map (fun x => x.path)
        ∧ (rest.map (fun x => x.path)).Nodup := by
      have : (b.path :: rest.map (fun x => x.path)).Nodup := hnd
      exact List.nodup_cons.1 this
    rcases List.mem_cons.1 ha with rfl | ha'
    · exact List.find?_cons_of_pos _ (by simp)
    · have hk : (b.path == a.path) = false := by
        simp only [beq_eq_false_iff_ne, ne_eq]
        intro hkk
        exact hn'.1 (hkk ▸ List.mem_map_of_mem (fun x => x.path) ha')
      simp only [List.find?_cons, hk]
      exact ih hn'.2 ha'

/-- Every group in `detectDuplicates assets` collects exactly the paths of
the assets with its hash (in scan order), has more than one of them, and its
size/waste fields are computed from its first path. -/
theorem detectDuplicates_mem_eq (assets : List ScannedAsset)
    (G : DuplicateGroup) (hG : G ∈ detectDuplicates assets) :
    1 < G.paths.length ∧
    G.paths = (assets.filter
        (fun a => computeFileHash a.content == G.groupHash)).map
        (fun a => a.path) ∧
    G = ⟨G.groupHash, G.paths, firstFileSize assets (G.paths.headD ""),
        firstFileSize assets (G.paths.headD "") * (G.paths.length - 1)⟩ := by
  rcases List.mem_filterMap.1 hG with ⟨g, hgm, hf⟩
  by_cases hc : 1 < g.2.length
  · rw [if_pos hc] at hf
    have hGeq : G = ⟨g.1, g.2, firstFileSize assets (g.2.headD ""),
        firstFileSize assets (g.2.headD "") * (g.2.length - 1)⟩ :=
      (Option.some.inj hf).symm
    have hpaths : G.paths = g.2 := by rw [hGeq]
    have hhash : G.groupHash = g.1 := by rw [hGeq]
    have hgrp : g.2 = groupOf (hashToFiles assets) g.1 :=
      (groupOf_eq_of_mem _ (nodup_keys_hashToFiles assets) g hgm).symm
    refine ⟨by rw [hpaths]; exact hc, ?_, ?_⟩
    · rw [hpaths, hhash, hgrp, groupOf_hashToFiles]
    · rw [hGeq]
  · rw [if_neg hc] at hf
    cases hf

/-- C6: for every group of assets sharing the same fingerprint with more than
one member, `detectDuplicates` creates exactly one `DuplicateGroup` holding
exactly those paths in scan order, computes
`wastedSpace = singleFileSize × (groupSize − 1)` where `singleFileSize` is
the first member's size, and the marking loop flags every member except the
first as a duplicate. -/
theorem detectDuplicates_groups (assets : List ScannedAsset)
    (hnd : (assets.map (fun a => a.path)).Nodup) (h : ℕ)
    (a₀ : ScannedAsset) (rest : List ScannedAsset)
    (hfilter : assets.filter (fun a => computeFileHash a.content == h)
        = a₀ :: rest)
    (hrest : rest ≠ []) :
    ∃ G ∈ detectDuplicates assets,
      G.groupHash = h ∧
      G.paths = (a₀ :: rest).map (fun a => a.path) ∧
      G.singleFileSize = a₀.content.length ∧
      G.wastedSpace = a₀.content.length * ((a₀ :: rest).length - 1) ∧
      (∀ G' ∈ detectDuplicates assets, G'.groupHash = h → G' = G) ∧
      (∀ p ∈ rest.map (fun a => a.path), isMarkedDuplicate assets p = true) ∧
      isMarkedDuplicate assets a₀.path = false := by
  have ha₀filter : a₀ ∈ assets.filter (fun a => computeFileHash a.content == h) := by
    rw [hfilter]
    exact List.mem_cons_self _ _
  have ha₀ : a₀ ∈ assets := List.mem_of_mem_filter ha₀filter
  have ha₀hash : computeFileHash a₀.content = h := by
    simpa using List.of_mem_filter ha₀filter
  have hffs : firstFileSize assets a₀.path = a₀.content.length := by
    unfold firstFileSize
    rw [find?_path_of_nodup assets hnd a₀ ha₀]
  have hgrp : groupOf (hashToFiles assets) h = (a₀ :: rest).map (fun a => a.path) := by
    rw [groupOf_hashToFiles, hfilter]
  have hne : groupOf (hashToFiles assets) h ≠ [] := by
    rw [hgrp]
    simp
  obtain ⟨g, hgm, hg1, hg2⟩ := exists_group_of_groupOf_ne_nil _ h hne
  have hg2' : g.2 = (a₀ :: rest).map (fun a => a.path) := by rw [hg2, hgrp]
  have hglen : 1 < g.2.length := by
    rw [hg2']
    rcases rest with _ | ⟨b, rest'⟩
    · exact absurd rfl hrest
    · simp
  have hhead : ((a₀ :: rest).map (fun a => a.path)).headD "" = a₀.path := rfl
  refine ⟨⟨h, (a₀ :: rest).map (fun a => a.path), a₀.content.length,
      a₀.content.length * ((a₀ :: rest).length - 1)⟩, ?_, rfl, rfl, rfl, ?_, ?_, ?_, ?_⟩
  · refine List.mem_filterMap.2 ⟨g, hgm, ?_⟩
    rw [if_pos hglen, hg1, hg2', hhead, hffs]
    rw [List.length_map]
  · rfl
  · -- uniqueness
    intro G' hG' hG'h
    obtain ⟨hlen', hpaths', heq'⟩ := detectDuplicates_mem_eq assets G' hG'
    have hp : G'.paths = (a₀ :: rest).map (fun a => a.path) := by
      rw [hpaths', hG'h, hfilter]
    rw [heq', hG'h, hp, hhead, hffs, List.length_map]
  · -- marking of non-first members
    intro p hp
    have hmemG : (⟨h, (a₀ :: rest).map (fun a => a.path), a₀.content.length,
        a₀.content.length * ((a₀ :: rest).length - 1)⟩ : DuplicateGroup)
          ∈ detectDuplicates assets := by
      refine List.mem_filterMap.2 ⟨g, hgm, ?_⟩
      rw [if_pos hglen, hg1, hg2', hhead, hffs]
      rw [List.length_map]
    refine List.any_eq_true.2 ⟨_, hmemG, ?_⟩
    simpa using hp
  · -- the first member is never marked
    rw [isMarkedDuplicate]
    by_contra hmark
    have hmark' : (detectDuplicates assets).any
        (fun g => (g.paths.drop 1).contains a₀.path) = true := by
      cases hval : (detectDuplicates assets).any
          (fun g => (g.paths.drop 1).contains a₀.path) with
      | false => exact absurd hval hmark
      | true => rfl
    obtain ⟨G', hG', hcont⟩ := List.any_eq_true.1 hmark'
    obtain ⟨hlen', hpaths', _⟩ := detectDuplicates_mem_eq assets G' hG'
    have hpmem : a₀.path ∈ G'.paths.drop 1 := by simpa using hcont
    have hpmem' : a₀.path ∈ G'.paths := List.mem_of_mem_drop hpmem
    rw [hpaths'] at hpmem'
    obtain ⟨b, hbfilter, hbpath⟩ := List.mem_map.1 hpmem'
    have hb : b ∈ assets := List.mem_of_mem_filter hbfilter
    have hba : b = a₀ := List.inj_on_of_nodup_map hnd hb ha₀ hbpath
    have hbhash : computeFileHash b.content = G'.groupHash := by
      simpa using List.of_mem_filter hbfilter
    have hG'h : G'.groupHash = h := by
      rw [← hbhash, hba, ha₀hash]
    have hp : G'.paths = (a₀ :: rest).map (fun a => a.path) := by
      rw [hpaths', hG'h, hfilter]
    rw [hp] at hpmem
    have hnodupPaths : ((a₀ :: rest).map (fun a => a.path)).Nodup := by
      have hsub : List.Sublist ((a₀ :: rest).map (fun a => a.path))
          (assets.map (fun a => a.path)) := by
        rw [← hfilter]
        exact List.Sublist.map _ (List.filter_sublist assets)
      exact List.Nodup.sublist hsub hnd
    have : a₀.path ∉ rest.map (fun a => a.path) := (List.nodup_cons.1 hnodupPaths).1
    exact this (by simpa using hpmem)

/-- C6 witness: `a.png` and `c.png` share content `[1, 2]`
(fingerprint `(2·31 + 1)·31 + 2 = 1955`); `b.png` differs. -/
theorem detectDuplicates_groups_witness :
    ∃ G ∈ detectDuplicates
        [⟨"a.png", [1, 2]⟩, ⟨"b.png", [9]⟩, ⟨"c.png", [1, 2]⟩],
      G.groupHash = 1955 ∧
      G.paths = (((⟨"a.png", [1, 2]⟩ : ScannedAsset) :: [⟨"c.png", [1, 2]⟩]).map
          (fun a => a.path)) ∧
      G.singleFileSize = (⟨"a.png", [1, 2]⟩ : ScannedAsset).content.length ∧
      G.wastedSpace = (⟨"a.png", [1, 2]⟩ : ScannedAsset).content.length *
        (((⟨"a.png", [1, 2]⟩ : ScannedAsset) :: [⟨"c.png", [1, 2]⟩]).length - 1) ∧
      (∀ G' ∈ detectDuplicates
          [⟨"a.png", [1, 2]⟩, ⟨"b.png", [9]⟩, ⟨"c.png", [1, 2]⟩],
        G'.groupHash = 1955 → G' = G) ∧
      (∀ p ∈ ([⟨"c.png", [1, 2]⟩] : List ScannedAsset).map (fun a => a.path),
        isMarkedDuplicate
          [⟨"a.png", [1, 2]⟩, ⟨"b.png", [9]⟩, ⟨"c.png", [1, 2]⟩] p = true) ∧
      isMarkedDuplicate [⟨"a.png", [1, 2]⟩, ⟨"b.png", [9]⟩, ⟨"c.png", [1, 2]⟩]
        (⟨"a.png", [1, 2]⟩ : ScannedAsset).path = false :=
  detectDuplicates_groups
    [⟨"a.png", [1, 2]⟩, ⟨"b.png", [9]⟩, ⟨"c.png", [1, 2]⟩] (by decide) 1955
    ⟨"a.png", [1, 2]⟩ [⟨"c.png", [1, 2]⟩] (by decide) (by decide)

/-! ## C3: progress-monotonicity lemmas -/

theorem chainLe_append {l₁ l₂ : List ℚ} (c : ℚ) (h₁ : l₁.Chain' (· ≤ ·))
    (h₂ : l₂.Chain' (· ≤ ·)) (hb₁ : ∀ x ∈ l₁, x ≤ c) (hb₂ : ∀ x ∈ l₂, c ≤ x) :
    (l₁ ++ l₂).Chain' (· ≤ ·) :=
  List.chain'_append.2 ⟨h₁, h₂, fun x hx y hy =>
    le_trans (hb₁ x (List.mem_of_mem_getLast? hx)) (hb₂ y (List.mem_of_mem_head? hy))⟩

theorem divCast_mono {a b : ℕ} (n : ℕ) (h : a ≤ b) : (a : ℚ) / n ≤ (b : ℚ) / n :=
  div_le_div_of_nonneg_right (by exact_mod_cast h) (by positivity)

theorem divCast_nonneg (a n : ℕ) : (0 : ℚ) ≤ (a : ℚ) / n := by positivity

theorem divCast_le_one {a n : ℕ} (h : a ≤ n) : (a : ℚ) / n ≤ 1 := by
  rcases Nat.eq_zero_or_pos n with hn | hn
  · have ha : a = 0 := Nat.le_zero.1 (hn ▸ h)
    subst ha hn
    norm_num
  · rw [div_le_one (by exact_mod_cast hn)]
    exact_mod_cast h

theorem segVals_chain (cum w : ℚ) (hw : 0 ≤ w) (sps : List ℚ)
    (h : sps.Chain' (· ≤ ·)) : (segVals cum w sps).Chain' (· ≤ ·) := by
  unfold segVals
  refine (List.chain'_map _).2 (h.imp ?_)
  intro a b hab
  have := mul_le_mul_of_nonneg_left hab hw
  linarith

theorem segVals_bounds (cum w : ℚ) (hw : 0 ≤ w) (sps : List ℚ)
    (hs : ∀ sp ∈ sps, 0 ≤ sp ∧ sp ≤ 1) :
    ∀ x ∈ segVals cum w sps, cum ≤ x ∧ x ≤ cum + w := by
  intro x hx
  obtain ⟨sp, hsp, rfl⟩ := List.mem_map.1 hx
  obtain ⟨h0, h1⟩ := hs sp hsp
  constructor
  · nlinarith
  · nlinarith

theorem preflightSps_chain : preflightSps.Chain' (· ≤ ·) := by
  simp only [preflightSps, List.chain'_cons, List.chain'_singleton, and_true]
  norm_num

theorem preflightSps_bounds : ∀ x ∈ preflightSps, 0 ≤ x ∧ x ≤ 1 := by
  intro x hx
  simp only [preflightSps, List.mem_cons, List.not_mem_nil, or_false] at hx
  rcases hx with rfl | rfl | rfl | rfl | rfl <;> norm_num

theorem perFileSps_chain (n : ℕ) : (perFileSps n).Chain' (· ≤ ·) := by
  unfold perFileSps
  refine List.chain'_cons'.2 ⟨?_, ?_⟩
  · intro y hy
    obtain ⟨k, _, rfl⟩ := List.mem_map.1 (List.mem_of_mem_head? hy)
    exact divCast_nonneg k n
  · refine (List.chain'_map _).2 (((List.pairwise_lt_range n).chain').imp ?_)
    intro a b hab
    exact divCast_mono n (le_of_lt hab)

theorem perFileSps_bounds (n : ℕ) : ∀ x ∈ perFileSps n, 0 ≤ x ∧ x ≤ 1 := by
  intro x hx
  rcases List.mem_cons.1 hx with rfl | hx
  · norm_num
  · obtain ⟨k, hk, rfl⟩ := List.mem_map.1 hx
    exact ⟨divCast_nonneg k n, divCast_le_one (le_of_lt (List.mem_range.1 hk))⟩

theorem langSps_chain_bounds (n : ℕ) (fs : List Bool) : ∀ b : ℕ,
    (langSps n b fs).Chain' (· ≤ ·) ∧
    ∀ x ∈ langSps n b fs,
      3/10 + 3/5 * ((b : ℚ) / n) ≤ x ∧
      x ≤ 3/10 + 3/5 * (((b + fs.length : ℕ) : ℚ) / n) := by
  induction fs with
  | nil =>
    intro b
    refine ⟨List.chain'_nil, ?_⟩
    intro x hx
    cases hx
  | cons f rest ih =>
    intro b
    have hb' : b ≤ (if f then b + 1 else b) ∧ (if f then b + 1 else b) ≤ b + 1 := by
      cases f <;> simp
    obtain ⟨ihc, ihb⟩ := ih (if f then b + 1 else b)
    have hmono1 : ((b : ℚ)) / n ≤ (((if f then b + 1 else b) : ℕ) : ℚ) / n :=
      divCast_mono n hb'.1
    have hmono2 : (((if f then b + 1 else b) + rest.length : ℕ) : ℚ) / n
        ≤ ((b + (f :: rest).length : ℕ) : ℚ) / n := by
      refine divCast_mono n ?_
      have := hb'.2
      simp only [List.length_cons]
      omega
    constructor
    · refine List.chain'_cons'.2 ⟨?_, ihc⟩
      intro y hy
      have h1 := (ihb y (List.mem_of_mem_head? hy)).1
      have h2 : 3/10 + 3/5 * ((b : ℚ) / n)
          ≤ 3/10 + 3/5 * ((((if f then b + 1 else b) : ℕ) : ℚ) / n) := by
        linarith
      exact le_trans h2 h1
    · intro x hx
      rcases List.mem_cons.1 hx with rfl | hx
      · refine ⟨le_refl _, ?_⟩
        have hm : ((b : ℚ)) / n ≤ ((b + (f :: rest).length : ℕ) : ℚ) / n := by
          refine divCast_mono n ?_
          omega
        linarith
      · obtain ⟨h1, h2⟩ := ihb x hx
        refine ⟨le_trans (by linarith) h1, le_trans h2 (by linarith)⟩

theorem packSps_chain_bounds (packAssets : Bool) (fs : List Bool) :
    (packSps packAssets fs).Chain' (· ≤ ·) ∧
    ∀ x ∈ packSps packAssets fs, 0 ≤ x ∧ x ≤ 1 := by
  cases packAssets with
  | false =>
    refine ⟨by simp [packSps], ?_⟩
    intro x hx
    simp only [packSps, Bool.false_eq_true, if_false, List.mem_singleton] at hx
    subst hx
    norm_num
  | true =>
    obtain ⟨hc, hb⟩ := langSps_chain_bounds fs.length fs 0
    have hlow : ∀ x ∈ langSps fs.length 0 fs, 3/10 ≤ x := by
      intro x hx
      have h1 := (hb x hx).1
      have h0 : ((0 : ℕ) : ℚ) / (fs.length : ℚ) = 0 := by norm_num
      rw [h0] at h1
      linarith
    have hup : ∀ x ∈ langSps fs.length 0 fs, x ≤ 9/10 := by
      intro x hx
      have h2 := (hb x hx).2
      have hd : (((0 + fs.length : ℕ)) : ℚ) / (fs.length : ℚ) ≤ 1 :=
        divCast_le_one (by omega)
      nlinarith
    have hinner : (langSps fs.length 0 fs ++ [19/20]).Chain' (· ≤ ·) := by
      refine chainLe_append (9/10) hc (List.chain'_singleton _) hup ?_
      intro x hx
      rw [List.mem_singleton] at hx
      subst hx
      norm_num
    have hinner_mem : ∀ x ∈ langSps fs.length 0 fs ++ [19/20],
        1/10 ≤ x ∧ x ≤ 1 := by
      intro x hx
      rcases List.mem_append.1 hx with hx | hx
      · have := hlow x hx
        have := hup x hx
        constructor <;> linarith
      · rw [List.mem_singleton] at hx
        subst hx
        norm_num
    have hchain : (packSps true fs).Chain' (· ≤ ·) := by
      show ((0 : ℚ) :: 1/10 :: (langSps fs.length 0 fs ++ [19/20])).Chain' (· ≤ ·)
      refine List.chain'_cons'.2 ⟨?_, List.chain'_cons'.2 ⟨?_, hinner⟩⟩
      · intro y hy
        simp only [List.head?_cons, Option.mem_def, Option.some.injEq] at hy
        subst hy
        norm_num
      · intro y hy
        exact (hinner_mem y (List.mem_of_mem_head? hy)).1
    refine ⟨hchain, ?_⟩
    intro x hx
    have hx' : x = 0 ∨ x = 1/10 ∨ x ∈ langSps fs.length 0 fs ++ [19/20] := by
      simpa [packSps] using hx
    rcases hx' with rfl | rfl | hx'
    · norm_num
    · norm_num
    · have := hinner_mem x hx'
      constructor <;> linarith [this.1, this.2]

theorem bundleSps_chain : bundleSps.Chain' (· ≤ ·) := by
  simp only [bundleSps, List.chain'_cons, List.chain'_singleton, and_true]
  norm_num

theorem bundleSps_bounds : ∀ x ∈ bundleSps, 0 ≤ x ∧ x ≤ 1 := by
  intro x hx
  simp only [bundleSps, List.mem_cons, List.not_mem_nil, or_false] at hx
  rcases hx with rfl | rfl | rfl <;> norm_num

theorem verifySps_chain (signing : Bool) : (verifySps signing).Chain' (· ≤ ·) := by
  cases signing <;>
    simp only [verifySps, Bool.false_eq_true, if_false, if_true, List.nil_append,
      List.cons_append, List.singleton_append, List.chain'_cons,
      List.chain'_singleton, and_true] <;>
    norm_num

theorem verifySps_bounds (signing : Bool) : ∀ x ∈ verifySps signing, 0 ≤ x ∧ x ≤ 1 := by
  intro x hx
  cases signing <;>
    simp only [verifySps, Bool.false_eq_true, if_false, if_true, List.nil_append,
      List.cons_append, List.singleton_append, List.mem_cons,
      List.not_mem_nil, or_false] at hx
  · rcases hx with rfl | rfl | rfl | rfl <;> norm_num
  · rcases hx with rfl | rfl | rfl | rfl | rfl <;> norm_num

theorem buildProgressEvents_chain (p : BuildRunShape) :
    (buildProgressEvents p).Chain' (· ≤ ·) := by
  have h1c := segVals_chain 0 (1/20) (by norm_num) _ preflightSps_chain
  have h1b := segVals_bounds 0 (1/20) (by norm_num) _ preflightSps_bounds
  have h2c := segVals_chain (1/20) (3/20) (by norm_num) _
    (perFileSps_chain p.numScripts)
  have h2b := segVals_bounds (1/20) (3/20) (by norm_num) _
    (perFileSps_bounds p.numScripts)
  have h3c := segVals_chain (1/5) (1/10) (by norm_num) _
    (perFileSps_chain p.numAssets)
  have h3b := segVals_bounds (1/5) (1/10) (by norm_num) _
    (perFileSps_bounds p.numAssets)
  have h4c := segVals_chain (3/10) (7/20) (by norm_num) _
    (packSps_chain_bounds p.packAssets p.langBuilt).1
  have h4b := segVals_bounds (3/10) (7/20) (by norm_num) _
    (packSps_chain_bounds p.packAssets p.langBuilt).2
  have h5c := segVals_chain (13/20) (1/4) (by norm_num) _ bundleSps_chain
  have h5b := segVals_bounds (13/20) (1/4) (by norm_num) _ bundleSps_bounds
  have h6c := segVals_chain (9/10) (1/10) (by norm_num) _
    (verifySps_chain p.signing)
  have h6b := segVals_bounds (9/10) (1/10) (by norm_num) _
    (verifySps_bounds p.signing)
  have t5 : (segVals (13/20) (1/4) bundleSps
      ++ segVals (9/10) (1/10) (verifySps p.signing)).Chain' (· ≤ ·) := by
    refine chainLe_append (9/10) h5c h6c ?_ ?_
    · intro x hx
      have := (h5b x hx).2
      linarith
    · intro x hx
      exact (h6b x hx).1
  have t5b : ∀ x ∈ segVals (13/20) (1/4) bundleSps
      ++ segVals (9/10) (1/10) (verifySps p.signing), 13/20 ≤ x := by
    intro x hx
    rcases List.mem_append.1 hx with hx | hx
    · exact (h5b x hx).1
    · have := (h6b x hx).1
      linarith
  have t4 : (segVals (3/10) (7/20) (packSps p.packAssets p.langBuilt)
      ++ (segVals (13/20) (1/4) bundleSps
        ++ segVals (9/10) (1/10) (verifySps p.signing))).Chain' (· ≤ ·) := by
    refine chainLe_append (13/20) h4c t5 ?_ t5b
    intro x hx
    have := (h4b x hx).2
    linarith
  have t4b : ∀ x ∈ segVals (3/10) (7/20) (packSps p.packAssets p.langBuilt)
      ++ (segVals (13/20) (1/4) bundleSps
        ++ segVals (9/10) (1/10) (verifySps p.signing)), 3/10 ≤ x := by
    intro x hx
    rcases List.mem_append.1 hx with hx | hx
    · exact (h4b x hx).1
    · have := t5b x hx
      linarith
  have t3 : (segVals (1/5) (1/10) (perFileSps p.numAssets)
      ++ (segVals (3/10) (7/20) (packSps p.packAssets p.langBuilt)
        ++ (segVals (13/20) (1/4) bundleSps
          ++ segVals (9/10) (1/10) (verifySps p.signing)))).Chain' (· ≤ ·) := by
    refine chainLe_append (3/10) h3c t4 ?_ t4b
    intro x hx
    have := (h3b x hx).2
    linarith
  have t3b : ∀ x ∈ segVals (1/5) (1/10) (perFileSps p.numAssets)
      ++ (segVals (3/10) (7/20) (packSps p.packAssets p.langBuilt)
        ++ (segVals (13/20) (1/4) bundleSps
          ++ segVals (9/10) (1/10) (verifySps p.signing))), 1/5 ≤ x := by
    intro x hx
    rcases List.mem_append.1 hx with hx | hx
    · exact (h3b x hx).1
    · have := t4b x hx
      linarith
  have t2 : (segVals (1/20) (3/20) (perFileSps p.numScripts)
      ++ (segVals (1/5) (1/10) (perFileSps p.numAssets)
        ++ (segVals (3/10) (7/20) (packSps p.packAssets p.langBuilt)
          ++ (segVals (13/20) (1/4) bundleSps
            ++ segVals (9/10) (1/10) (verifySps p.signing))))).Chain' (· ≤ ·) := by
    refine chainLe_append (1/5) h2c t3 ?_ t3b
    intro x hx
    have := (h2b x hx).2
    linarith
  have t2b : ∀ x ∈ segVals (1/20) (3/20) (perFileSps p.numScripts)
      ++ (segVals (1/5) (1/10) (perFileSps p.numAssets)
        ++ (segVals (3/10) (7/20) (packSps p.packAssets p.langBuilt)
          ++ (segVals (13/20) (1/4) bundleSps
            ++ segVals (9/10) (1/10) (verifySps p.signing)))), 1/20 ≤ x := by
    intro x hx
    rcases List.mem_append.1 hx with hx | hx
    · exact (h2b x hx).1
    · have := t3b x hx
      linarith
  have hfull := chainLe_append (1/20) h1c t2 (fun x hx => by
    have := (h1b x hx).2
    linarith) t2b
  unfold buildProgressEvents
  simpa [List.append_assoc] using hfull

/-- C3: the six `progressWeight` values installed by `startBuild` sum to 1,
and within one build the aggregate `progress` published to `onProgressUpdate`
is monotonically non-decreasing: every build's callback sequence is a prefix
(`take k`) of the full event list `buildProgressEvents`, and every such
prefix is a `≤`-chain. -/
theorem progress_weights_sum_and_monotone :
    stepWeights.sum = 1 ∧
    ∀ (p : BuildRunShape) (k : ℕ),
      ((buildProgressEvents p).take k).Chain' (· ≤ ·) := by
  constructor
  · norm_num [stepWeights]
  · intro p k
    exact (buildProgressEvents_chain p).sublist (List.take_sublist k _)

end NovelMind
